/-
Verification of the ranking and frecency core of the `nr` interactive
script runner (src/sort.rs, src/fuzzy.rs, src/store/recents.rs,
src/store/favorites.rs), shallowly embedded in Lean 4.

Modelling conventions:
  * Rust `u32`/`u64`/`usize` values become `Nat`; the only subtraction the
    core performs is `u64::saturating_sub`, which is exactly `Nat.sub`.
  * Rust `f64` frecency scores become exact real numbers (`ℝ`): the score
    formula `(log2(count+1)+1) * 0.5^(age_days/14)` is transcendental, and
    every property proved here is about its exact value; float rounding is
    abstracted away.  No score is ever NaN, so `partial_cmp(..).unwrap_or`
    in the source is modelled by the total comparison on `ℝ`.
  * The nucleo fuzzy matcher is an external crate; per the specification it
    is a pluggable oracle `match(query, text) -> Option<score>`.  It is
    modelled as an explicit function parameter `σ : String → String →
    Option Nat`, and theorems quantify over it.
  * Rust's stable `slice::sort_by` is modelled by a stable insertion sort
    `sortStable`; `Iterator::min_by` (which keeps the first of equally
    minimal elements) by `minByEnum`.
  * `HashSet<String>::contains` becomes a membership predicate
    `String → Bool`; the `HashMap` of frecency scores built by sort.rs
    becomes a lookup in which later inserts win, as in the source.
-/
import Mathlib

/-! ## Stable sort by a comparator (Rust `slice::sort_by` is stable) -/

/-- Insert `x` into `l`, skipping past exactly the elements `y` that the
comparator places strictly before `x` (`cmp x y = gt`); on `eq` the inserted
element goes first, which is what makes the sort stable. -/
def insertCmp {α : Type*} (cmp : α → α → Ordering) (x : α) : List α → List α
  | [] => [x]
  | y :: ys => if cmp x y = Ordering.gt then y :: insertCmp cmp x ys else x :: y :: ys

/-- Stable insertion sort by a comparator.  For a comparator that is a total
preorder this produces the unique stable sorted order, the same list Rust's
stable `sort_by` produces. -/
def sortStable {α : Type*} (cmp : α → α → Ordering) : List α → List α
  | [] => []
  | x :: xs => insertCmp cmp x (sortStable cmp xs)

theorem insertCmp_perm {α : Type*} (cmp : α → α → Ordering) (x : α) (l : List α) :
    (insertCmp cmp x l).Perm (x :: l) := by
  induction l with
  | nil => simp [insertCmp]
  | cons y ys ih =>
    by_cases h : cmp x y = Ordering.gt
    · simpa [insertCmp, h] using ((ih.cons y).trans (List.Perm.swap x y ys))
    · simp [insertCmp, h]

theorem sortStable_perm {α : Type*} (cmp : α → α → Ordering) (l : List α) :
    (sortStable cmp l).Perm l := by
  induction l with
  | nil => simp [sortStable]
  | cons x xs ih =>
    exact (insertCmp_perm cmp x (sortStable cmp xs)).trans (ih.cons x)

/-- The function `insertCmp` splits the list at the insertion point: everything before the
inserted element is exactly the skipped prefix, each of whose elements the
comparator puts strictly before `x`. -/
theorem insertCmp_split {α : Type*} (cmp : α → α → Ordering) (x : α) (l : List α) :
    ∃ l₁ l₂, l = l₁ ++ l₂ ∧ insertCmp cmp x l = l₁ ++ x :: l₂ ∧
      ∀ y ∈ l₁, cmp x y = Ordering.gt := by
  induction l with
  | nil => exact ⟨[], [], rfl, rfl, by simp⟩
  | cons y ys ih =>
    by_cases h : cmp x y = Ordering.gt
    · obtain ⟨l₁, l₂, hl, hins, hall⟩ := ih
      refine ⟨y :: l₁, l₂, by simp [hl], ?_, ?_⟩
      · simp [insertCmp, h, hins]
      · intro z hz
        rcases List.mem_cons.mp hz with rfl | hz
        · exact h
        · exact hall z hz
    · exact ⟨[], y :: ys, rfl, by simp [insertCmp, h], by simp⟩

theorem sublist_insertCmp {α : Type*} (cmp : α → α → Ordering) (x : α) (l : List α) :
    l.Sublist (insertCmp cmp x l) := by
  obtain ⟨l₁, l₂, hl, hins, -⟩ := insertCmp_split cmp x l
  rw [hins, hl]
  exact List.Sublist.append_left (List.sublist_cons_self x l₂) l₁

theorem insertCmp_pairwise {α : Type*} (cmp : α → α → Ordering)
    (htrans : ∀ a b c, cmp a b ≠ Ordering.gt → cmp b c ≠ Ordering.gt →
      cmp a c ≠ Ordering.gt)
    (hflip : ∀ a b, cmp a b = Ordering.gt → cmp b a ≠ Ordering.gt)
    (x : α) (l : List α) (hl : l.Pairwise (fun a b => cmp a b ≠ Ordering.gt)) :
    (insertCmp cmp x l).Pairwise (fun a b => cmp a b ≠ Ordering.gt) := by
  induction l with
  | nil => simp [insertCmp]
  | cons y ys ih =>
    rcases List.pairwise_cons.mp hl with ⟨hy, hys⟩
    by_cases h : cmp x y = Ordering.gt
    · have hrest := ih hys
      have hstep : insertCmp cmp x (y :: ys) = y :: insertCmp cmp x ys := by
        simp [insertCmp, h]
      rw [hstep]
      refine List.pairwise_cons.mpr ⟨?_, hrest⟩
      intro z hz
      have hz2 : z = x ∨ z ∈ ys := by
        simpa using (insertCmp_perm cmp x ys).mem_iff.mp hz
      rcases hz2 with rfl | hz2
      · exact hflip _ _ h
      · exact hy z hz2
    · have hstep : insertCmp cmp x (y :: ys) = x :: y :: ys := by
        simp [insertCmp, h]
      rw [hstep]
      refine List.pairwise_cons.mpr ⟨?_, hl⟩
      intro z hz
      rcases List.mem_cons.mp hz with rfl | hz2
      · exact h
      · exact htrans x y z h (hy z hz2)

theorem sortStable_pairwise {α : Type*} (cmp : α → α → Ordering)
    (htrans : ∀ a b c, cmp a b ≠ Ordering.gt → cmp b c ≠ Ordering.gt →
      cmp a c ≠ Ordering.gt)
    (hflip : ∀ a b, cmp a b = Ordering.gt → cmp b a ≠ Ordering.gt)
    (l : List α) :
    (sortStable cmp l).Pairwise (fun a b => cmp a b ≠ Ordering.gt) := by
  induction l with
  | nil => simp [sortStable]
  | cons x xs ih => exact insertCmp_pairwise cmp htrans hflip x (sortStable cmp xs) ih

/-- Stability: a pair that the comparator does not order strictly the other
way keeps its relative order through the sort. -/
theorem sortStable_sublist_pair {α : Type*} (cmp : α → α → Ordering) {l : List α}
    {a b : α} (h : [a, b].Sublist l) (hab : cmp a b ≠ Ordering.gt) :
    [a, b].Sublist (sortStable cmp l) := by
  induction l with
  | nil => cases h
  | cons x xs ih =>
    cases h with
    | cons _ h =>
      exact (ih h).trans (sublist_insertCmp cmp x (sortStable cmp xs))
    | cons₂ _ h =>
      -- here `x = a` and `b` occurs in `xs`
      obtain ⟨l₁, l₂, hl, hins, hall⟩ := insertCmp_split cmp a (sortStable cmp xs)
      rw [sortStable, hins]
      have hbmem : b ∈ sortStable cmp xs :=
        ((sortStable_perm cmp xs).mem_iff).mpr (h.subset (by simp))
      have hbl₂ : b ∈ l₂ := by
        rw [hl] at hbmem
        rcases List.mem_append.mp hbmem with hb₁ | hb₂
        · exact absurd (hall b hb₁) hab
        · exact hb₂
      have : [a, b].Sublist (a :: l₂) :=
        List.cons_sublist_cons.mpr (List.singleton_sublist.mpr hbl₂)
      exact this.trans (List.sublist_append_right l₁ (a :: l₂))

/-! ## `Iterator::min_by` over an enumerated list

Rust's `enumerate().min_by(cmp)` returns the first minimal element together
with its index; the accumulator is replaced only when the comparator says the
new element is strictly smaller (`cmp acc e = gt`). -/

def minByAux {α : Type*} (cmp : α → α → Ordering) :
    List α → ℕ → ℕ × α → ℕ × α
  | [], _, acc => acc
  | e :: es, i, acc =>
    minByAux cmp es (i + 1) (if cmp acc.2 e = Ordering.gt then (i, e) else acc)

def minByEnum {α : Type*} (cmp : α → α → Ordering) : List α → Option (ℕ × α)
  | [] => none
  | e :: es => some (minByAux cmp es 1 (0, e))

theorem minByAux_spec {α : Type*} (cmp : α → α → Ordering) (score : α → ℝ)
    (hcmp : ∀ x y, cmp x y = Ordering.gt ↔ score y < score x) :
    ∀ (es : List α) (i : ℕ) (acc : ℕ × α),
      (minByAux cmp es i acc = acc ∨
        ∃ j, ∃ hj : j < es.length, minByAux cmp es i acc = (i + j, es.get ⟨j, hj⟩)) ∧
      score (minByAux cmp es i acc).2 ≤ score acc.2 ∧
      ∀ x ∈ es, score (minByAux cmp es i acc).2 ≤ score x := by
  intro es
  induction es with
  | nil =>
    intro i acc
    refine ⟨Or.inl rfl, le_refl _, by simp⟩
  | cons e es ih =>
    intro i acc
    by_cases h : cmp acc.2 e = Ordering.gt
    · have hlt : score e < score acc.2 := (hcmp acc.2 e).mp h
      have hstep : minByAux cmp (e :: es) i acc = minByAux cmp es (i + 1) (i, e) := by
        simp [minByAux, h]
      obtain ⟨hpos, hle, hall⟩ := ih (i + 1) (i, e)
      refine ⟨?_, ?_, ?_⟩
      · rcases hpos with hpos | ⟨j, hj, hpos⟩
        · refine Or.inr ⟨0, by simp, ?_⟩
          rw [hstep, hpos]
          simp
        · refine Or.inr ⟨j + 1, by simpa using hj, ?_⟩
          rw [hstep, hpos]
          refine Prod.ext ?_ rfl
          omega
      · rw [hstep]
        exact le_trans hle (le_of_lt hlt)
      · intro x hx
        rw [hstep]
        rcases List.mem_cons.mp hx with rfl | hx2
        · exact hle
        · exact hall x hx2
    · have hge : score acc.2 ≤ score e := not_lt.mp (fun hc => h ((hcmp acc.2 e).mpr hc))
      have hstep : minByAux cmp (e :: es) i acc = minByAux cmp es (i + 1) acc := by
        simp [minByAux, h]
      obtain ⟨hpos, hle, hall⟩ := ih (i + 1) acc
      refine ⟨?_, ?_, ?_⟩
      · rcases hpos with hpos | ⟨j, hj, hpos⟩
        · exact Or.inl (hstep.trans hpos)
        · refine Or.inr ⟨j + 1, by simpa using hj, ?_⟩
          rw [hstep, hpos]
          refine Prod.ext ?_ rfl
          omega
      · exact hstep ▸ hle
      · intro x hx
        rw [hstep]
        rcases List.mem_cons.mp hx with rfl | hx2
        · exact le_trans hle hge
        · exact hall x hx2

theorem minByEnum_spec {α : Type*} (cmp : α → α → Ordering) (score : α → ℝ)
    (hcmp : ∀ x y, cmp x y = Ordering.gt ↔ score y < score x)
    (l : List α) (hl : l ≠ []) :
    ∃ i, ∃ hi : i < l.length, minByEnum cmp l = some (i, l.get ⟨i, hi⟩) ∧
      ∀ x ∈ l, score (l.get ⟨i, hi⟩) ≤ score x := by
  cases l with
  | nil => exact absurd rfl hl
  | cons e es =>
    obtain ⟨hpos, hle, hall⟩ := minByAux_spec cmp score hcmp es 1 (0, e)
    rcases hpos with hpos | ⟨j, hj, hpos⟩
    · refine ⟨0, Nat.succ_pos _, ?_, ?_⟩
      · show some (minByAux cmp es 1 (0, e)) = _
        rw [hpos]
        rfl
      · intro x hx
        have h2 : (minByAux cmp es 1 (0, e)).2 = e := by rw [hpos]
        rcases List.mem_cons.mp hx with rfl | hx2
        · exact le_refl _
        · exact h2 ▸ hall x hx2
    · have h1j : 1 + j = j + 1 := Nat.add_comm 1 j
      rw [h1j] at hpos
      have hj2 : j + 1 < (e :: es).length := Nat.succ_lt_succ hj
      have hget : (e :: es).get ⟨j + 1, hj2⟩ = es.get ⟨j, hj⟩ := rfl
      refine ⟨j + 1, hj2, ?_, ?_⟩
      · show some (minByAux cmp es 1 (0, e)) = _
        rw [hpos, hget]
      · intro x hx
        have h2 : (minByAux cmp es 1 (0, e)).2 = es.get ⟨j, hj⟩ := by rw [hpos]
        rw [hget, ← h2]
        rcases List.mem_cons.mp hx with rfl | hx2
        · exact hle
        · exact hall x hx2

/-! ## Data model (src/store/recents.rs, src/sort.rs) -/

/-- One recency record (src/store/recents.rs `RecentEntry`): fields in source
order — key, last_run (Unix ms), count. -/
structure RecentEntry where
  key : String
  last_run : ℕ
  count : ℕ
deriving DecidableEq

/-- Maximum number of recent entries to keep (src/store/recents.rs). -/
def MAX_RECENTS : ℕ := 100

/-- One sortable script row (src/sort.rs `SortableScript`). -/
structure SortableScript where
  key : String
  name : String
  command : String
deriving DecidableEq

instance : Inhabited SortableScript := ⟨⟨"", "", ""⟩⟩

/-! ## Frecency scorer (src/store/recents.rs `frecency_score`)

The `f64` computation is modelled over exact reals.  `u64::saturating_sub`
is `Nat.sub`.  `0.5_f64.powf` is real `rpow`. -/

noncomputable def frecency_score (count last_run_ms now_ms : ℕ) : ℝ :=
  let age_in_days : ℝ := ((now_ms - last_run_ms : ℕ) : ℝ) / (1000 * 60 * 60 * 24)
  let halflife : ℝ := 14
  let frequency_score : ℝ := Real.logb 2 ((count : ℝ) + 1) + 1
  frequency_score * (0.5 : ℝ) ^ (age_in_days / halflife)

/-- Modelled from the spec (§4.1 Frecency Scorer), for comparison with the
implementation: `age_days = max(0, now - last_used_at) / milliseconds_per_day`;
`frequency_term = log2(use_count + 1) + 1`; `halflife_days = 14`;
`score = frequency_term * 0.5^(age_days / halflife_days)`.  The subtraction
here is over ℝ with an explicit `max 0` clamp, exactly as the spec words it. -/
noncomputable def frecency_spec_formula (use_count last_used_at now : ℕ) : ℝ :=
  let age_days : ℝ := max 0 ((now : ℝ) - (last_used_at : ℝ)) / (1000 * 60 * 60 * 24)
  let frequency_term : ℝ := Real.logb 2 ((use_count : ℝ) + 1) + 1
  let halflife_days : ℝ := 14
  frequency_term * (0.5 : ℝ) ^ (age_days / halflife_days)

theorem cast_sub_eq_max (l n : ℕ) :
    ((n - l : ℕ) : ℝ) = max 0 ((n : ℝ) - (l : ℝ)) := by
  rcases le_total l n with h | h
  · rw [Nat.cast_sub h, max_eq_right (sub_nonneg.mpr (Nat.cast_le.mpr h))]
  · rw [Nat.sub_eq_zero_of_le h, Nat.cast_zero,
      max_eq_left (sub_nonpos.mpr (Nat.cast_le.mpr h))]

theorem frecency_score_eq_spec_formula (count last_run_ms now_ms : ℕ) :
    frecency_score count last_run_ms now_ms =
      frecency_spec_formula count last_run_ms now_ms := by
  unfold frecency_score frecency_spec_formula
  rw [cast_sub_eq_max]

theorem frequency_term_pos (count : ℕ) : 0 < Real.logb 2 ((count : ℝ) + 1) + 1 := by
  have hc : (0 : ℝ) ≤ (count : ℝ) := Nat.cast_nonneg count
  have h := Real.logb_nonneg (b := 2) (x := (count : ℝ) + 1) (by norm_num)
    (by linarith)
  linarith

theorem frecency_score_pos (count last_run_ms now_ms : ℕ) :
    0 < frecency_score count last_run_ms now_ms := by
  unfold frecency_score
  exact mul_pos (frequency_term_pos count) (Real.rpow_pos_of_pos (by norm_num) _)

theorem frecency_score_age_zero (count now_ms : ℕ) :
    frecency_score count now_ms now_ms = Real.logb 2 ((count : ℝ) + 1) + 1 := by
  unfold frecency_score
  rw [Nat.sub_self]
  norm_num

/-- Clock skew clamps: the score only depends on `last_run_ms` through
`min last_run_ms now_ms`, because the saturating subtraction clamps a
future `last_run_ms` to age zero. -/
theorem frecency_score_clamp (count last_run_ms now_ms : ℕ) :
    frecency_score count last_run_ms now_ms =
      frecency_score count (min last_run_ms now_ms) now_ms := by
  unfold frecency_score
  have h : now_ms - min last_run_ms now_ms = now_ms - last_run_ms := by omega
  rw [h]

/-- The decay factor is at most one, so no score exceeds its age-zero value. -/
theorem frecency_score_le_age_zero (count last_run_ms now_ms : ℕ) :
    frecency_score count last_run_ms now_ms ≤ frecency_score count now_ms now_ms := by
  rw [frecency_score_age_zero]
  unfold frecency_score
  have hexp : (0 : ℝ) ≤ (((now_ms - last_run_ms : ℕ) : ℝ) / (1000 * 60 * 60 * 24)) / 14 := by
    positivity
  have hdecay : (0.5 : ℝ) ^ ((((now_ms - last_run_ms : ℕ) : ℝ) / (1000 * 60 * 60 * 24)) / 14) ≤
      (0.5 : ℝ) ^ (0 : ℝ) :=
    Real.rpow_le_rpow_of_exponent_ge (by norm_num) (by norm_num) hexp
  rw [Real.rpow_zero] at hdecay
  calc (Real.logb 2 ((count : ℝ) + 1) + 1) *
        (0.5 : ℝ) ^ ((((now_ms - last_run_ms : ℕ) : ℝ) / (1000 * 60 * 60 * 24)) / 14)
      ≤ (Real.logb 2 ((count : ℝ) + 1) + 1) * 1 :=
        mul_le_mul_of_nonneg_left hdecay (le_of_lt (frequency_term_pos count))
    _ = Real.logb 2 ((count : ℝ) + 1) + 1 := mul_one _

/-- Monotonicity in recency: a later `last_run` (less elapsed age) never
lowers the score, at fixed count and fixed now. -/
theorem frecency_score_mono_last_run (count l₁ l₂ now_ms : ℕ) (h : l₁ ≤ l₂) :
    frecency_score count l₁ now_ms ≤ frecency_score count l₂ now_ms := by
  unfold frecency_score
  have hsub : now_ms - l₂ ≤ now_ms - l₁ := Nat.sub_le_sub_left h now_ms
  have hexp : (((now_ms - l₂ : ℕ) : ℝ) / (1000 * 60 * 60 * 24)) / 14 ≤
      (((now_ms - l₁ : ℕ) : ℝ) / (1000 * 60 * 60 * 24)) / 14 := by
    have hc : ((now_ms - l₂ : ℕ) : ℝ) ≤ ((now_ms - l₁ : ℕ) : ℝ) := Nat.cast_le.mpr hsub
    gcongr
  have hdecay := Real.rpow_le_rpow_of_exponent_ge (x := (0.5 : ℝ))
    (by norm_num) (by norm_num) hexp
  exact mul_le_mul_of_nonneg_left hdecay (le_of_lt (frequency_term_pos count))

/-- Strict monotonicity in the count at fixed age. -/
theorem frecency_score_strict_mono_count (c₁ c₂ last_run_ms now_ms : ℕ) (h : c₁ < c₂) :
    frecency_score c₁ last_run_ms now_ms < frecency_score c₂ last_run_ms now_ms := by
  have hlog : Real.logb 2 ((c₁ : ℝ) + 1) < Real.logb 2 ((c₂ : ℝ) + 1) := by
    refine Real.logb_lt_logb (by norm_num) (by positivity) ?_
    have : (c₁ : ℝ) < (c₂ : ℝ) := Nat.cast_lt.mpr h
    linarith
  have hdecay : (0 : ℝ) < (0.5 : ℝ) ^
      ((((now_ms - last_run_ms : ℕ) : ℝ) / (1000 * 60 * 60 * 24)) / 14) :=
    Real.rpow_pos_of_pos (by norm_num) _
  have hfinal : (Real.logb 2 ((c₁ : ℝ) + 1) + 1) *
      (0.5 : ℝ) ^ ((((now_ms - last_run_ms : ℕ) : ℝ) / (1000 * 60 * 60 * 24)) / 14) <
      (Real.logb 2 ((c₂ : ℝ) + 1) + 1) *
      (0.5 : ℝ) ^ ((((now_ms - last_run_ms : ℕ) : ℝ) / (1000 * 60 * 60 * 24)) / 14) :=
    mul_lt_mul_of_pos_right (by linarith) hdecay
  simpa [frecency_score] using hfinal

/-- After exactly one 14-day half-life, the score is exactly half the
age-zero score (in the exact-real model). -/
theorem frecency_score_half_life (count now_ms : ℕ)
    (h : 14 * (1000 * 60 * 60 * 24) ≤ now_ms) :
    frecency_score count (now_ms - 14 * (1000 * 60 * 60 * 24)) now_ms =
      (Real.logb 2 ((count : ℝ) + 1) + 1) * (0.5 : ℝ) := by
  simp only [frecency_score]
  rw [Nat.sub_sub_self h]
  have hage : (((14 * (1000 * 60 * 60 * 24) : ℕ) : ℝ) / (1000 * 60 * 60 * 24)) / 14 = 1 := by
    push_cast
    norm_num
  rw [hage, Real.rpow_one]

/-- C4 (spec §4.1): the implemented score equals the spec formula
`(log2(count+1)+1) * 0.5^(max(0, now-last)/ms_per_day/14)`; negative elapsed
time is clamped to zero age (the score only sees `min last now`), the score
never exceeds its age-zero value, and it is strictly positive.  (`f64` is
modelled by exact reals, so finiteness is inherent to the model.) -/
theorem frecency_score_spec_C4 (count last_run_ms now_ms : ℕ) :
    frecency_score count last_run_ms now_ms =
      frecency_spec_formula count last_run_ms now_ms ∧
    frecency_score count last_run_ms now_ms =
      frecency_score count (min last_run_ms now_ms) now_ms ∧
    frecency_score count last_run_ms now_ms ≤ frecency_score count now_ms now_ms ∧
    0 < frecency_score count last_run_ms now_ms :=
  ⟨frecency_score_eq_spec_formula count last_run_ms now_ms,
   frecency_score_clamp count last_run_ms now_ms,
   frecency_score_le_age_zero count last_run_ms now_ms,
   frecency_score_pos count last_run_ms now_ms⟩

/-- C7 (spec §4.1 guarantees): strictly increasing in count at age zero,
non-increasing in age at fixed count (stated as monotone in `last_run`),
and after one half-life the ratio to the age-zero score is within 0.01
of 0.5 (here it is exactly 0.5). -/
theorem frecency_score_guarantees_C7 (c c₁ c₂ l₁ l₂ now_ms : ℕ)
    (hc : c₁ < c₂) (hl : l₁ ≤ l₂)
    (hn : 14 * (1000 * 60 * 60 * 24) ≤ now_ms) :
    frecency_score c₁ now_ms now_ms < frecency_score c₂ now_ms now_ms ∧
    frecency_score c l₁ now_ms ≤ frecency_score c l₂ now_ms ∧
    |frecency_score c (now_ms - 14 * (1000 * 60 * 60 * 24)) now_ms /
        frecency_score c now_ms now_ms - 0.5| ≤ 0.01 := by
  refine ⟨frecency_score_strict_mono_count c₁ c₂ now_ms now_ms hc,
    frecency_score_mono_last_run c l₁ l₂ now_ms hl, ?_⟩
  have hfreq := frequency_term_pos c
  rw [frecency_score_half_life c now_ms hn, frecency_score_age_zero c now_ms,
    mul_comm, mul_div_assoc, div_self (ne_of_gt hfreq)]
  norm_num

theorem frecency_score_guarantees_C7_witness :
    frecency_score 1 1209600000 1209600000 < frecency_score 2 1209600000 1209600000 ∧
    frecency_score 2 3 1209600000 ≤ frecency_score 2 5 1209600000 ∧
    |frecency_score 2 (1209600000 - 14 * (1000 * 60 * 60 * 24)) 1209600000 /
        frecency_score 2 1209600000 1209600000 - 0.5| ≤ 0.01 :=
  frecency_score_guarantees_C7 2 1 2 3 5 1209600000 (by norm_num) (by norm_num)
    (by norm_num)

/-! ## Recency store (src/store/recents.rs `record_execution`)

`record_execution` captures `now_ms` once from the clock; the model takes it
as a parameter.  The mutation has two phases exactly as in the source: update
the first entry with the key (or push a new one), then, if the length now
exceeds `MAX_RECENTS`, remove the entry `enumerate().min_by(..)` picks —
the first one whose frecency score at `now_ms` is minimal. -/

noncomputable def entry_score (now_ms : ℕ) (e : RecentEntry) : ℝ :=
  frecency_score e.count e.last_run now_ms

/-- The comparator passed to `min_by`: `score_a.partial_cmp(&score_b)
.unwrap_or(Equal)`.  Scores are never NaN, so this is the total comparison. -/
noncomputable def frecencyCmp (now_ms : ℕ) (a b : RecentEntry) : Ordering :=
  if entry_score now_ms a < entry_score now_ms b then Ordering.lt
  else if entry_score now_ms b < entry_score now_ms a then Ordering.gt
  else Ordering.eq

/-- Rust `iter_mut().find(|e| e.key == key)` followed by the in-place
`count += 1; last_run = now`: only the first matching entry changes. -/
def updateFirst (key : String) (now_ms : ℕ) : List RecentEntry → List RecentEntry
  | [] => []
  | e :: es =>
    if e.key = key then { e with count := e.count + 1, last_run := now_ms } :: es
    else e :: updateFirst key now_ms es

/-- Phase one of `record_execution`: update the existing entry, or push
`RecentEntry { key, last_run: now, count: 1 }`. -/
def updateOrInsert (recents : List RecentEntry) (key : String) (now_ms : ℕ) :
    List RecentEntry :=
  if ∃ e ∈ recents, e.key = key then updateFirst key now_ms recents
  else recents ++ [{ key := key, last_run := now_ms, count := 1 }]

/-- Model of `record_execution` (src/store/recents.rs, lines 54-85). -/
noncomputable def record_execution (recents : List RecentEntry) (key : String)
    (now_ms : ℕ) : List RecentEntry :=
  let updated := updateOrInsert recents key now_ms
  if MAX_RECENTS < updated.length then
    match minByEnum (frecencyCmp now_ms) updated with
    | some (i, _) => updated.eraseIdx i
    | none => updated
  else updated

theorem frecencyCmp_gt_iff (now_ms : ℕ) (a b : RecentEntry) :
    frecencyCmp now_ms a b = Ordering.gt ↔
      entry_score now_ms b < entry_score now_ms a := by
  unfold frecencyCmp
  rcases lt_trichotomy (entry_score now_ms a) (entry_score now_ms b) with h | h | h
  · simp [h, asymm h]
  · simp [h, lt_irrefl]
  · simp [h, asymm h]

theorem updateFirst_length (key : String) (now_ms : ℕ) (l : List RecentEntry) :
    (updateFirst key now_ms l).length = l.length := by
  induction l with
  | nil => rfl
  | cons e es ih =>
    by_cases h : e.key = key <;> simp [updateFirst, h, ih]

theorem updateOrInsert_length (recents : List RecentEntry) (key : String)
    (now_ms : ℕ) :
    (updateOrInsert recents key now_ms).length = recents.length ∨
    (updateOrInsert recents key now_ms).length = recents.length + 1 := by
  unfold updateOrInsert
  by_cases h : ∃ e ∈ recents, e.key = key
  · exact Or.inl (by simp [h, updateFirst_length])
  · exact Or.inr (by simp [h])

/-- The first-match update, characterised positionally: if position `i` holds
the first entry with the key, `updateFirst` replaces exactly that position
and leaves every other entry unchanged. -/
theorem updateFirst_set (key : String) (now_ms : ℕ) :
    ∀ (l : List RecentEntry) (i : ℕ) (hi : i < l.length),
      (l.get ⟨i, hi⟩).key = key →
      (∀ j (hj : j < i), (l.get ⟨j, Nat.lt_trans hj hi⟩).key ≠ key) →
      updateFirst key now_ms l =
        l.set i { l.get ⟨i, hi⟩ with count := (l.get ⟨i, hi⟩).count + 1, last_run := now_ms } := by
  intro l
  induction l with
  | nil => intro i hi; exact absurd hi (Nat.not_lt_zero i)
  | cons e es ih =>
    intro i hi hkey hfirst
    cases i with
    | zero =>
      simp only [List.get] at hkey
      simp [updateFirst, hkey, List.set]
    | succ i' =>
      have hne : e.key ≠ key := by
        have := hfirst 0 (Nat.succ_pos i')
        simpa using this
      have hi' : i' < es.length := Nat.lt_of_succ_lt_succ hi
      have hkey' : (es.get ⟨i', hi'⟩).key = key := hkey
      have hfirst' : ∀ j (hj : j < i'), (es.get ⟨j, Nat.lt_trans hj hi'⟩).key ≠ key := by
        intro j hj
        have := hfirst (j + 1) (Nat.succ_lt_succ hj)
        simpa using this
      simp only [updateFirst, hne, if_neg, not_false_iff]
      rw [ih i' hi' hkey' hfirst']
      rfl

theorem record_execution_no_evict (recents : List RecentEntry) (key : String)
    (now_ms : ℕ) (h : (updateOrInsert recents key now_ms).length ≤ MAX_RECENTS) :
    record_execution recents key now_ms = updateOrInsert recents key now_ms := by
  have hre : record_execution recents key now_ms =
      if MAX_RECENTS < (updateOrInsert recents key now_ms).length then
        (match minByEnum (frecencyCmp now_ms) (updateOrInsert recents key now_ms) with
          | some (i, _) => (updateOrInsert recents key now_ms).eraseIdx i
          | none => updateOrInsert recents key now_ms)
      else updateOrInsert recents key now_ms := rfl
  rw [hre, if_neg (not_lt.mpr h)]

/-- C9 (spec §4.2 `record_execution`, below capacity): an existing entry —
the first with the key — has its count incremented and its `last_run` set to
now with every other entry untouched; a missing key appends a fresh
`{key, now, 1}` entry, leaving all existing entries unchanged. -/
theorem record_execution_update_C9 (recents : List RecentEntry) (key : String)
    (now_ms : ℕ) (h : recents.length < MAX_RECENTS) :
    ((∀ e ∈ recents, e.key ≠ key) →
      record_execution recents key now_ms =
        recents ++ [{ key := key, last_run := now_ms, count := 1 }]) ∧
    (∀ i (hi : i < recents.length), (recents.get ⟨i, hi⟩).key = key →
      (∀ j (hj : j < i), (recents.get ⟨j, Nat.lt_trans hj hi⟩).key ≠ key) →
      record_execution recents key now_ms =
        recents.set i { recents.get ⟨i, hi⟩ with count := (recents.get ⟨i, hi⟩).count + 1, last_run := now_ms }) := by
  have hlen : (updateOrInsert recents key now_ms).length ≤ MAX_RECENTS := by
    rcases updateOrInsert_length recents key now_ms with h1 | h1 <;> omega
  have hne := record_execution_no_evict recents key now_ms hlen
  constructor
  · intro hall
    have hnex : ¬ ∃ e ∈ recents, e.key = key := by
      rintro ⟨e, he, hk⟩
      exact hall e he hk
    rw [hne]
    unfold updateOrInsert
    rw [if_neg hnex]
  · intro i hi hkey hfirst
    have hex : ∃ e ∈ recents, e.key = key :=
      ⟨recents.get ⟨i, hi⟩, List.get_mem recents i hi, hkey⟩
    rw [hne]
    unfold updateOrInsert
    rw [if_pos hex]
    exact updateFirst_set key now_ms recents i hi hkey hfirst

theorem record_execution_update_C9_witness :
    record_execution [{ key := "dev", last_run := 0, count := 1 }] "build" 5 =
      [{ key := "dev", last_run := 0, count := 1 },
       { key := "build", last_run := 5, count := 1 }] := by
  have h := (record_execution_update_C9
    [{ key := "dev", last_run := 0, count := 1 }] "build" 5 (by decide)).1 (by decide)
  simpa using h

/-- C3 (spec §3 RecencyStore invariant): starting at or below capacity, the
store never exceeds `MAX_RECENTS`; and whenever the post-mutation length
would exceed the capacity, exactly one record is removed — one whose
frecency score evaluated at the current timestamp is minimal. -/
theorem record_execution_capacity_C3 (recents : List RecentEntry) (key : String)
    (now_ms : ℕ) (h : recents.length ≤ MAX_RECENTS) :
    (record_execution recents key now_ms).length ≤ MAX_RECENTS ∧
    (MAX_RECENTS < (updateOrInsert recents key now_ms).length →
      ∃ i, ∃ hi : i < (updateOrInsert recents key now_ms).length,
        (∀ e ∈ updateOrInsert recents key now_ms,
          entry_score now_ms ((updateOrInsert recents key now_ms).get ⟨i, hi⟩) ≤
            entry_score now_ms e) ∧
        record_execution recents key now_ms =
          (updateOrInsert recents key now_ms).eraseIdx i) := by
  have hulen : (updateOrInsert recents key now_ms).length ≤ recents.length + 1 := by
    rcases updateOrInsert_length recents key now_ms with h1 | h1 <;> omega
  by_cases hc : MAX_RECENTS < (updateOrInsert recents key now_ms).length
  · have hne : updateOrInsert recents key now_ms ≠ [] := by
      intro hnil
      rw [hnil] at hc
      simp [MAX_RECENTS] at hc
    obtain ⟨i, hi, heq, hall⟩ := minByEnum_spec (frecencyCmp now_ms)
      (entry_score now_ms) (frecencyCmp_gt_iff now_ms)
      (updateOrInsert recents key now_ms) hne
    have hre : record_execution recents key now_ms =
        (updateOrInsert recents key now_ms).eraseIdx i := by
      have hdef : record_execution recents key now_ms =
          if MAX_RECENTS < (updateOrInsert recents key now_ms).length then
            (match minByEnum (frecencyCmp now_ms) (updateOrInsert recents key now_ms) with
              | some (j, _) => (updateOrInsert recents key now_ms).eraseIdx j
              | none => updateOrInsert recents key now_ms)
          else updateOrInsert recents key now_ms := rfl
      rw [hdef, if_pos hc, heq]
    constructor
    · rw [hre]
      rw [List.length_eraseIdx, if_pos hi]
      omega
    · intro _
      exact ⟨i, hi, hall, hre⟩
  · have hle := not_lt.mp hc
    rw [record_execution_no_evict recents key now_ms hle]
    exact ⟨hle, fun hcon => absurd hcon hc⟩

theorem record_execution_capacity_C3_witness :
    (record_execution [] "dev" 0).length ≤ MAX_RECENTS :=
  (record_execution_capacity_C3 [] "dev" 0 (by decide)).1

theorem eraseIdx_append_singleton {α : Type*} (l : List α) (x : α) :
    (l ++ [x]).eraseIdx l.length = l := by
  induction l with
  | nil => rfl
  | cons a as ih => simp [List.eraseIdx_cons_succ, ih]

/-- C2 (amended): inserting a fresh 101st key evicts the entry whose frecency
score at insertion time is (first) lowest among the 101 post-insert entries —
possibly the newly inserted entry itself — so the size returns to 100, and
the new key is present afterwards unless the eviction removed the new entry
(in which case the store is unchanged). -/
theorem record_execution_eviction_C2 (recents : List RecentEntry) (key : String)
    (now_ms : ℕ) (h1 : recents.length = MAX_RECENTS)
    (h2 : ∀ e ∈ recents, e.key ≠ key) :
    (record_execution recents key now_ms).length = MAX_RECENTS ∧
    (∃ i, ∃ hi : i < (updateOrInsert recents key now_ms).length,
      (∀ e ∈ updateOrInsert recents key now_ms,
        entry_score now_ms ((updateOrInsert recents key now_ms).get ⟨i, hi⟩) ≤
          entry_score now_ms e) ∧
      record_execution recents key now_ms =
        (updateOrInsert recents key now_ms).eraseIdx i) ∧
    ((∃ e ∈ record_execution recents key now_ms, e.key = key) ∨
      record_execution recents key now_ms = recents) := by
  have hnex : ¬ ∃ e ∈ recents, e.key = key := by
    rintro ⟨e, he, hk⟩
    exact h2 e he hk
  have hu : updateOrInsert recents key now_ms =
      recents ++ [{ key := key, last_run := now_ms, count := 1 }] := by
    unfold updateOrInsert
    rw [if_neg hnex]
  have hulen : (updateOrInsert recents key now_ms).length = MAX_RECENTS + 1 := by
    rw [hu]
    simp [h1]
  have hc : MAX_RECENTS < (updateOrInsert recents key now_ms).length := by omega
  obtain ⟨-, hevict⟩ :=
    record_execution_capacity_C3 recents key now_ms (le_of_eq h1)
  obtain ⟨i, hi, hall, hre⟩ := hevict hc
  have hlen100 : (record_execution recents key now_ms).length = MAX_RECENTS := by
    rw [hre, List.length_eraseIdx, if_pos hi]
    omega
  refine ⟨hlen100, ⟨i, hi, hall, hre⟩, ?_⟩
  have hi' : i < MAX_RECENTS + 1 := by omega
  by_cases hcase : i < recents.length
  · left
    refine ⟨{ key := key, last_run := now_ms, count := 1 }, ?_, rfl⟩
    rw [hre, hu, List.eraseIdx_append_of_lt_length hcase]
    exact List.mem_append.mpr (Or.inr (by simp))
  · right
    have hieq : i = recents.length := by omega
    rw [hre, hu, hieq, eraseIdx_append_singleton]

theorem record_execution_eviction_C2_witness :
    (record_execution
        (List.replicate 100 { key := "old", last_run := 0, count := 10 })
        "new" 0).length = MAX_RECENTS :=
  (record_execution_eviction_C2
    (List.replicate 100 { key := "old", last_run := 0, count := 10 }) "new" 0
    (by simp [MAX_RECENTS]) (by simp [List.mem_replicate])).1

theorem minByAux_replicate {α : Type*} (cmp : α → α → Ordering) (e : α)
    (hne : cmp e e ≠ Ordering.gt) :
    ∀ (m i j : ℕ), minByAux cmp (List.replicate m e) i (j, e) = (j, e) := by
  intro m
  induction m with
  | zero => intro i j; rfl
  | succ m ih =>
    intro i j
    rw [List.replicate_succ]
    show minByAux cmp (List.replicate m e) (i + 1)
      (if cmp (j, e).2 e = Ordering.gt then (i, e) else (j, e)) = (j, e)
    rw [if_neg hne]
    exact ih (i + 1) j

theorem minByAux_append {α : Type*} (cmp : α → α → Ordering) :
    ∀ (l₁ l₂ : List α) (i : ℕ) (acc : ℕ × α),
      minByAux cmp (l₁ ++ l₂) i acc =
        minByAux cmp l₂ (i + l₁.length) (minByAux cmp l₁ i acc) := by
  intro l₁
  induction l₁ with
  | nil => intro l₂ i acc; simp [minByAux]
  | cons e es ih =>
    intro l₂ i acc
    simp only [List.cons_append, minByAux, List.append_eq]
    rw [ih]
    congr 1
    simp only [List.length_cons]
    omega

/-- C2 counterexample: with 100 entries all fresher and more used than a
brand-new entry (count 10 at age zero versus count 1 at age zero), the newly
inserted key is itself the lowest-frecency record and is evicted on the spot:
the store keeps its 100 old entries and the new key is NOT present. -/
theorem record_execution_eviction_C2_counterexample :
    record_execution
        (List.replicate 100 { key := "old", last_run := 0, count := 10 })
        "new" 0 =
      List.replicate 100 { key := "old", last_run := 0, count := 10 } ∧
    ∀ e ∈ record_execution
        (List.replicate 100 { key := "old", last_run := 0, count := 10 })
        "new" 0, e.key ≠ "new" := by
  have hsc : entry_score 0 ({ key := "new", last_run := 0, count := 1 } : RecentEntry) <
      entry_score 0 ({ key := "old", last_run := 0, count := 10 } : RecentEntry) :=
    frecency_score_strict_mono_count 1 10 0 0 (by norm_num)
  have hcmp_old_old : frecencyCmp 0 ({ key := "old", last_run := 0, count := 10 } : RecentEntry)
      { key := "old", last_run := 0, count := 10 } ≠ Ordering.gt := by
    intro hgt
    exact lt_irrefl _ ((frecencyCmp_gt_iff 0 _ _).mp hgt)
  have hcmp_old_new : frecencyCmp 0 ({ key := "old", last_run := 0, count := 10 } : RecentEntry)
      { key := "new", last_run := 0, count := 1 } = Ordering.gt :=
    (frecencyCmp_gt_iff 0 _ _).mpr hsc
  have hnex : ¬ ∃ e ∈ List.replicate 100
      ({ key := "old", last_run := 0, count := 10 } : RecentEntry), e.key = "new" := by
    rintro ⟨e, he, hk⟩
    rw [List.mem_replicate] at he
    rw [he.2] at hk
    exact absurd hk (by decide)
  have hu : updateOrInsert
      (List.replicate 100 { key := "old", last_run := 0, count := 10 }) "new" 0 =
      List.replicate 100 { key := "old", last_run := 0, count := 10 } ++
        [{ key := "new", last_run := 0, count := 1 }] := by
    unfold updateOrInsert
    rw [if_neg hnex]
  have h100 : (100 : ℕ) = 99 + 1 := by norm_num
  have hmin : minByEnum (frecencyCmp 0)
      (List.replicate 100 ({ key := "old", last_run := 0, count := 10 } : RecentEntry) ++
        [{ key := "new", last_run := 0, count := 1 }]) =
      some (100, { key := "new", last_run := 0, count := 1 }) := by
    rw [h100, List.replicate_succ, List.cons_append]
    show some (minByAux (frecencyCmp 0)
      (List.replicate 99 { key := "old", last_run := 0, count := 10 } ++
        [{ key := "new", last_run := 0, count := 1 }]) 1
      (0, { key := "old", last_run := 0, count := 10 })) = _
    rw [minByAux_append, minByAux_replicate (frecencyCmp 0) _ hcmp_old_old]
    show some (minByAux (frecencyCmp 0) []
      ((1 + (List.replicate 99 ({ key := "old", last_run := 0, count := 10 } : RecentEntry)).length) + 1)
      (if frecencyCmp 0 (0, ({ key := "old", last_run := 0, count := 10 } : RecentEntry)).2
            { key := "new", last_run := 0, count := 1 } = Ordering.gt
        then ((1 + (List.replicate 99 ({ key := "old", last_run := 0, count := 10 } : RecentEntry)).length),
              { key := "new", last_run := 0, count := 1 })
        else (0, { key := "old", last_run := 0, count := 10 }))) = _
    rw [if_pos hcmp_old_new]
    simp [minByAux]
  have hresult : record_execution
      (List.replicate 100 { key := "old", last_run := 0, count := 10 }) "new" 0 =
      List.replicate 100 { key := "old", last_run := 0, count := 10 } := by
    have hdef : record_execution
        (List.replicate 100 { key := "old", last_run := 0, count := 10 }) "new" 0 =
        if MAX_RECENTS < (updateOrInsert
            (List.replicate 100 { key := "old", last_run := 0, count := 10 }) "new" 0).length then
          (match minByEnum (frecencyCmp 0) (updateOrInsert
              (List.replicate 100 { key := "old", last_run := 0, count := 10 }) "new" 0) with
            | some (i, _) => (updateOrInsert
                (List.replicate 100 { key := "old", last_run := 0, count := 10 }) "new" 0).eraseIdx i
            | none => updateOrInsert
                (List.replicate 100 { key := "old", last_run := 0, count := 10 }) "new" 0)
        else updateOrInsert
          (List.replicate 100 { key := "old", last_run := 0, count := 10 }) "new" 0 := rfl
    rw [hdef, hu]
    rw [if_pos (by simp [MAX_RECENTS])]
    rw [hmin]
    have hlenr : (List.replicate 100
        ({ key := "old", last_run := 0, count := 10 } : RecentEntry)).length = 100 := by simp
    rw [← hlenr]
    exact eraseIdx_append_singleton _ _
  refine ⟨hresult, ?_⟩
  intro e he
  rw [hresult, List.mem_replicate] at he
  rw [he.2]
  decide

/-! ## Favorites store (src/store/favorites.rs `toggle_favorite`) -/

/-- Model of `toggle_favorite`: remove the key when present (returning `false`),
insert it when absent (returning `true`).  The `HashSet<String>` is modelled
as a `Finset String`; the pair is (set after the call, returned Bool). -/
def toggle_favorite (favorites : Finset String) (key : String) :
    Finset String × Bool :=
  if key ∈ favorites then (favorites.erase key, false)
  else (insert key favorites, true)

/-- C10: `toggle_favorite` returns `true` iff the key was absent; the key's
membership is flipped; every other key's membership is unchanged; and
toggling twice restores the original set. -/
theorem toggle_favorite_spec_C10 (favorites : Finset String) (key : String) :
    ((toggle_favorite favorites key).2 = true ↔ key ∉ favorites) ∧
    (key ∈ (toggle_favorite favorites key).1 ↔ key ∉ favorites) ∧
    (∀ k, k ≠ key → (k ∈ (toggle_favorite favorites key).1 ↔ k ∈ favorites)) ∧
    (toggle_favorite (toggle_favorite favorites key).1 key).1 = favorites := by
  by_cases h : key ∈ favorites
  · refine ⟨by simp [toggle_favorite, h], by simp [toggle_favorite, h], ?_, ?_⟩
    · intro k hk
      simp [toggle_favorite, h, Finset.mem_erase, hk]
    · have hnotin : key ∉ favorites.erase key := Finset.not_mem_erase key favorites
      simp [toggle_favorite, h, hnotin, Finset.insert_erase h]
  · refine ⟨by simp [toggle_favorite, h], by simp [toggle_favorite, h], ?_, ?_⟩
    · intro k hk
      simp [toggle_favorite, h, Finset.mem_insert, hk]
    · have hin : key ∈ insert key favorites := Finset.mem_insert_self key favorites
      simp [toggle_favorite, h, hin, Finset.erase_insert h]

/-! ## Fuzzy filter (src/fuzzy.rs `fuzzy_filter`)

The nucleo matcher (`Pattern::parse` + `Pattern::score`) is an external
crate, abstracted as the scoring oracle `σ : query → text → Option score`
(`u32` scores become `ℕ`).  An empty query returns all indices in order;
otherwise the scored items are sorted by descending score with Rust's
stable sort (`b.1.cmp(&a.1)` on the score components) and the indices
extracted. -/

def fuzzy_filter {α : Type*} (items : List α) (query : String)
    (get_text : α → String) (σ : String → String → Option ℕ) : List ℕ :=
  if query = "" then List.range items.length
  else
    (sortStable (fun a b => compare b.2 a.2)
      (items.enum.filterMap
        (fun p => (σ query (get_text p.2)).map (fun s => (p.1, s))))).map Prod.fst

/-! ## Ranking engine (src/sort.rs) -/

/-- Rust `String::cmp`: lexicographic byte order on UTF-8, which agrees with
the lexicographic codepoint order of Lean's `String` linear order. -/
def strCmp (a b : String) : Ordering :=
  if a < b then Ordering.lt else if b < a then Ordering.gt else Ordering.eq

theorem strCmp_gt_iff (a b : String) : strCmp a b = Ordering.gt ↔ b < a := by
  unfold strCmp
  rcases lt_trichotomy a b with h | h | h
  · simp [h, asymm h]
  · simp [h, lt_irrefl]
  · simp [h, asymm h]

theorem strCmp_not_gt_iff (a b : String) : strCmp a b ≠ Ordering.gt ↔ a ≤ b := by
  rw [Ne, strCmp_gt_iff, not_lt]

/-- The per-key score lookup sort.rs builds: a `HashMap` filled by iterating
the recents (later inserts overwrite earlier ones, hence the reversed
`find?`), consulted with `.copied().unwrap_or(0.0)`. -/
noncomputable def recent_score (recents : List RecentEntry) (now_ms : ℕ)
    (k : String) : ℝ :=
  match recents.reverse.find? (fun e => e.key == k) with
  | some e => frecency_score e.count e.last_run now_ms
  | none => 0

/-- The comparator of `sort_scripts_no_query` (src/sort.rs lines 43-78):
favorites first; two favorites compare alphabetically; two non-favorites
compare by descending frecency score and then alphabetically. -/
noncomputable def cmpNoQuery (scripts : List SortableScript)
    (favorites : String → Bool) (score_of : String → ℝ) (a b : ℕ) : Ordering :=
  let script_a := scripts.getD a default
  let script_b := scripts.getD b default
  match favorites script_a.key, favorites script_b.key with
  | true, false => Ordering.lt
  | false, true => Ordering.gt
  | true, true => strCmp script_a.name script_b.name
  | false, false =>
    if score_of script_b.key < score_of script_a.key then Ordering.lt
    else if score_of script_a.key < score_of script_b.key then Ordering.gt
    else strCmp script_a.name script_b.name

/-- The comparator of `sort_scripts_with_query` (src/sort.rs lines 104-131):
favorite status decides first; otherwise descending frecency score; equal
scores compare as `Equal` (the relative order of the fuzzy-matched input is
then kept by sort stability). -/
noncomputable def cmpWithQuery (scripts : List SortableScript)
    (favorites : String → Bool) (score_of : String → ℝ) (a b : ℕ) : Ordering :=
  let script_a := scripts.getD a default
  let script_b := scripts.getD b default
  match favorites script_a.key, favorites script_b.key with
  | true, false => Ordering.lt
  | false, true => Ordering.gt
  | _, _ =>
    if score_of script_b.key < score_of script_a.key then Ordering.lt
    else if score_of script_a.key < score_of script_b.key then Ordering.gt
    else Ordering.eq

noncomputable def sort_scripts_no_query (scripts : List SortableScript)
    (favorites : String → Bool) (recents : List RecentEntry) (now_ms : ℕ) :
    List ℕ :=
  sortStable (cmpNoQuery scripts favorites (recent_score recents now_ms))
    (List.range scripts.length)

noncomputable def sort_scripts_with_query (scripts : List SortableScript)
    (favorites : String → Bool) (recents : List RecentEntry) (query : String)
    (σ : String → String → Option ℕ) (now_ms : ℕ) : List ℕ :=
  sortStable (cmpWithQuery scripts favorites (recent_score recents now_ms))
    (fuzzy_filter scripts query SortableScript.name σ)

/-- Model of `sort_scripts` (src/sort.rs lines 13-24). -/
noncomputable def sort_scripts (scripts : List SortableScript)
    (favorites : String → Bool) (recents : List RecentEntry) (query : String)
    (σ : String → String → Option ℕ) (now_ms : ℕ) : List ℕ :=
  if query = "" then sort_scripts_no_query scripts favorites recents now_ms
  else sort_scripts_with_query scripts favorites recents query σ now_ms

theorem score_branch_not_gt_iff (x y : ℝ) :
    (if y < x then Ordering.lt else if x < y then Ordering.gt else Ordering.eq) ≠
        Ordering.gt ↔ y ≤ x := by
  rcases lt_trichotomy x y with h | h | h
  · simp [h, asymm h, not_le.mpr h]
  · simp [h, lt_irrefl]
  · simp [h, asymm h, le_of_lt h]

theorem score_branch_gt_iff (x y : ℝ) :
    (if y < x then Ordering.lt else if x < y then Ordering.gt else Ordering.eq) =
        Ordering.gt ↔ x < y := by
  rcases lt_trichotomy x y with h | h | h
  · simp [h, asymm h]
  · simp [h, lt_irrefl]
  · simp [h, asymm h]

theorem score_name_branch_not_gt_iff (x y : ℝ) (na nb : String) :
    (if y < x then Ordering.lt else if x < y then Ordering.gt else strCmp na nb) ≠
        Ordering.gt ↔ (y < x ∨ (x = y ∧ na ≤ nb)) := by
  rcases lt_trichotomy x y with h | h | h
  · simp [h, asymm h, ne_of_lt h]
  · simp [h, lt_irrefl, strCmp_not_gt_iff]
  · simp [h, asymm h]

theorem score_name_branch_gt_iff (x y : ℝ) (na nb : String) :
    (if y < x then Ordering.lt else if x < y then Ordering.gt else strCmp na nb) =
        Ordering.gt ↔ (x < y ∨ (x = y ∧ nb < na)) := by
  rcases lt_trichotomy x y with h | h | h
  · simp [h, asymm h, ne_of_lt h]
  · simp [h, lt_irrefl, strCmp_gt_iff]
  · simp [h, asymm h, ne_of_gt h]

theorem cmpWithQuery_not_gt_iff (scripts : List SortableScript)
    (favorites : String → Bool) (score_of : String → ℝ) (a b : ℕ) :
    cmpWithQuery scripts favorites score_of a b ≠ Ordering.gt ↔
      ((favorites (scripts.getD a default).key = true ∧
        favorites (scripts.getD b default).key = false) ∨
       (favorites (scripts.getD a default).key =
          favorites (scripts.getD b default).key ∧
        score_of (scripts.getD b default).key ≤
          score_of (scripts.getD a default).key)) := by
  simp only [cmpWithQuery]
  cases hFa : favorites (scripts.getD a default).key <;>
    cases hFb : favorites (scripts.getD b default).key
  · simpa using score_branch_not_gt_iff (score_of (scripts.getD a default).key)
      (score_of (scripts.getD b default).key)
  · simp
  · simp
  · simpa using score_branch_not_gt_iff (score_of (scripts.getD a default).key)
      (score_of (scripts.getD b default).key)

theorem cmpWithQuery_gt_iff (scripts : List SortableScript)
    (favorites : String → Bool) (score_of : String → ℝ) (a b : ℕ) :
    cmpWithQuery scripts favorites score_of a b = Ordering.gt ↔
      ((favorites (scripts.getD a default).key = false ∧
        favorites (scripts.getD b default).key = true) ∨
       (favorites (scripts.getD a default).key =
          favorites (scripts.getD b default).key ∧
        score_of (scripts.getD a default).key <
          score_of (scripts.getD b default).key)) := by
  simp only [cmpWithQuery]
  cases hFa : favorites (scripts.getD a default).key <;>
    cases hFb : favorites (scripts.getD b default).key
  · simpa using score_branch_gt_iff (score_of (scripts.getD a default).key)
      (score_of (scripts.getD b default).key)
  · simp
  · simp
  · simpa using score_branch_gt_iff (score_of (scripts.getD a default).key)
      (score_of (scripts.getD b default).key)

theorem cmpWithQuery_trans (scripts : List SortableScript)
    (favorites : String → Bool) (score_of : String → ℝ) (a b c : ℕ)
    (hab : cmpWithQuery scripts favorites score_of a b ≠ Ordering.gt)
    (hbc : cmpWithQuery scripts favorites score_of b c ≠ Ordering.gt) :
    cmpWithQuery scripts favorites score_of a c ≠ Ordering.gt := by
  rw [cmpWithQuery_not_gt_iff] at hab hbc ⊢
  rcases hab with ⟨ha1, hb1⟩ | ⟨hab1, hab2⟩
  · rcases hbc with ⟨hb2, hc1⟩ | ⟨hbc1, hbc2⟩
    · rw [hb1] at hb2
      exact absurd hb2 (by simp)
    · exact Or.inl ⟨ha1, hbc1 ▸ hb1⟩
  · rcases hbc with ⟨hb2, hc1⟩ | ⟨hbc1, hbc2⟩
    · exact Or.inl ⟨hab1.trans hb2, hc1⟩
    · exact Or.inr ⟨hab1.trans hbc1, le_trans hbc2 hab2⟩

theorem cmpWithQuery_flip (scripts : List SortableScript)
    (favorites : String → Bool) (score_of : String → ℝ) (a b : ℕ)
    (h : cmpWithQuery scripts favorites score_of a b = Ordering.gt) :
    cmpWithQuery scripts favorites score_of b a ≠ Ordering.gt := by
  rw [cmpWithQuery_gt_iff] at h
  rw [cmpWithQuery_not_gt_iff]
  rcases h with ⟨ha, hb⟩ | ⟨heq, hlt⟩
  · exact Or.inl ⟨hb, ha⟩
  · exact Or.inr ⟨heq.symm, le_of_lt hlt⟩

theorem cmpNoQuery_not_gt_iff (scripts : List SortableScript)
    (favorites : String → Bool) (score_of : String → ℝ) (a b : ℕ) :
    cmpNoQuery scripts favorites score_of a b ≠ Ordering.gt ↔
      ((favorites (scripts.getD a default).key = true ∧
        favorites (scripts.getD b default).key = false) ∨
       (favorites (scripts.getD a default).key = true ∧
        favorites (scripts.getD b default).key = true ∧
        (scripts.getD a default).name ≤ (scripts.getD b default).name) ∨
       (favorites (scripts.getD a default).key = false ∧
        favorites (scripts.getD b default).key = false ∧
        (score_of (scripts.getD b default).key < score_of (scripts.getD a default).key ∨
          (score_of (scripts.getD a default).key = score_of (scripts.getD b default).key ∧
           (scripts.getD a default).name ≤ (scripts.getD b default).name)))) := by
  simp only [cmpNoQuery]
  cases hFa : favorites (scripts.getD a default).key <;>
    cases hFb : favorites (scripts.getD b default).key
  · simpa using score_name_branch_not_gt_iff
      (score_of (scripts.getD a default).key) (score_of (scripts.getD b default).key)
      (scripts.getD a default).name (scripts.getD b default).name
  · simp
  · simp
  · simpa using strCmp_not_gt_iff (scripts.getD a default).name
      (scripts.getD b default).name

theorem cmpNoQuery_gt_iff (scripts : List SortableScript)
    (favorites : String → Bool) (score_of : String → ℝ) (a b : ℕ) :
    cmpNoQuery scripts favorites score_of a b = Ordering.gt ↔
      ((favorites (scripts.getD a default).key = false ∧
        favorites (scripts.getD b default).key = true) ∨
       (favorites (scripts.getD a default).key = true ∧
        favorites (scripts.getD b default).key = true ∧
        (scripts.getD b default).name < (scripts.getD a default).name) ∨
       (favorites (scripts.getD a default).key = false ∧
        favorites (scripts.getD b default).key = false ∧
        (score_of (scripts.getD a default).key < score_of (scripts.getD b default).key ∨
          (score_of (scripts.getD a default).key = score_of (scripts.getD b default).key ∧
           (scripts.getD b default).name < (scripts.getD a default).name)))) := by
  simp only [cmpNoQuery]
  cases hFa : favorites (scripts.getD a default).key <;>
    cases hFb : favorites (scripts.getD b default).key
  · simpa using score_name_branch_gt_iff
      (score_of (scripts.getD a default).key) (score_of (scripts.getD b default).key)
      (scripts.getD a default).name (scripts.getD b default).name
  · simp
  · simp
  · simpa using strCmp_gt_iff (scripts.getD a default).name
      (scripts.getD b default).name

theorem cmpNoQuery_trans (scripts : List SortableScript)
    (favorites : String → Bool) (score_of : String → ℝ) (a b c : ℕ)
    (hab : cmpNoQuery scripts favorites score_of a b ≠ Ordering.gt)
    (hbc : cmpNoQuery scripts favorites score_of b c ≠ Ordering.gt) :
    cmpNoQuery scripts favorites score_of a c ≠ Ordering.gt := by
  rw [cmpNoQuery_not_gt_iff] at hab hbc ⊢
  rcases hab with ⟨ha, hb⟩ | ⟨ha, hb, hn⟩ | ⟨ha, hb, hs⟩ <;>
    rcases hbc with ⟨hb2, hc⟩ | ⟨hb2, hc, hn2⟩ | ⟨hb2, hc, hs2⟩
  · rw [hb] at hb2; exact absurd hb2 (by simp)
  · rw [hb] at hb2; exact absurd hb2 (by simp)
  · exact Or.inl ⟨ha, hc⟩
  · exact Or.inl ⟨ha, hc⟩
  · exact Or.inr (Or.inl ⟨ha, hc, le_trans hn hn2⟩)
  · rw [hb] at hb2; exact absurd hb2 (by simp)
  · rw [hb] at hb2; exact absurd hb2 (by simp)
  · rw [hb] at hb2; exact absurd hb2 (by simp)
  · refine Or.inr (Or.inr ⟨ha, hc, ?_⟩)
    rcases hs with hlt | ⟨heq, hle⟩
    · rcases hs2 with hlt2 | ⟨heq2, hle2⟩
      · exact Or.inl (lt_trans hlt2 hlt)
      · exact Or.inl (heq2 ▸ hlt)
    · rcases hs2 with hlt2 | ⟨heq2, hle2⟩
      · exact Or.inl (heq ▸ hlt2)
      · exact Or.inr ⟨heq.trans heq2, le_trans hle hle2⟩

theorem cmpNoQuery_flip (scripts : List SortableScript)
    (favorites : String → Bool) (score_of : String → ℝ) (a b : ℕ)
    (h : cmpNoQuery scripts favorites score_of a b = Ordering.gt) :
    cmpNoQuery scripts favorites score_of b a ≠ Ordering.gt := by
  rw [cmpNoQuery_gt_iff] at h
  rw [cmpNoQuery_not_gt_iff]
  rcases h with ⟨ha, hb⟩ | ⟨ha, hb, hn⟩ | ⟨ha, hb, hs⟩
  · exact Or.inl ⟨hb, ha⟩
  · exact Or.inr (Or.inl ⟨hb, ha, le_of_lt hn⟩)
  · refine Or.inr (Or.inr ⟨hb, ha, ?_⟩)
    rcases hs with hlt | ⟨heq, hlt⟩
    · exact Or.inl hlt
    · exact Or.inr ⟨heq.symm, le_of_lt hlt⟩

theorem enumFrom_pairwise_fst_lt {α : Type*} (l : List α) :
    ∀ n, (List.enumFrom n l).Pairwise (fun p q => p.1 < q.1) := by
  induction l with
  | nil => intro n; simp
  | cons x xs ih =>
    intro n
    rw [List.enumFrom_cons]
    refine List.pairwise_cons.mpr ⟨?_, ih (n + 1)⟩
    rintro ⟨q1, q2⟩ hq
    have := (List.mk_mem_enumFrom_iff_le_and_getElem?_sub.mp hq).1
    simpa using this

theorem enum_pairwise_fst_lt {α : Type*} (l : List α) :
    l.enum.Pairwise (fun p q => p.1 < q.1) :=
  enumFrom_pairwise_fst_lt l 0

theorem fuzzy_filter_mem {α : Type*} (items : List α) (query : String)
    (get_text : α → String) (σ : String → String → Option ℕ)
    (hq : query ≠ "") (i : ℕ) :
    i ∈ fuzzy_filter items query get_text σ ↔
      ∃ x, items[i]? = some x ∧ ∃ s, σ query (get_text x) = some s := by
  unfold fuzzy_filter
  rw [if_neg hq]
  simp only [List.mem_map]
  constructor
  · rintro ⟨p, hp, rfl⟩
    have hp2 : p ∈ items.enum.filterMap
        (fun p => (σ query (get_text p.2)).map (fun s => (p.1, s))) :=
      (sortStable_perm _ _).subset hp
    rw [List.mem_filterMap] at hp2
    obtain ⟨q, hq2, hf⟩ := hp2
    rw [Option.map_eq_some'] at hf
    obtain ⟨s, hs, hps⟩ := hf
    have hq3 := List.mem_enum_iff_getElem?.mp hq2
    refine ⟨q.2, ?_, s, hs⟩
    rw [← hps]
    exact hq3
  · rintro ⟨x, hx, s, hs⟩
    refine ⟨(i, s), ?_, rfl⟩
    apply ((sortStable_perm _ _).mem_iff).mpr
    rw [List.mem_filterMap]
    refine ⟨(i, x), List.mem_enum_iff_getElem?.mpr (by simpa using hx), ?_⟩
    simp [hs]

theorem fuzzy_filter_nodup {α : Type*} (items : List α) (query : String)
    (get_text : α → String) (σ : String → String → Option ℕ) :
    (fuzzy_filter items query get_text σ).Nodup := by
  unfold fuzzy_filter
  by_cases hq : query = ""
  · rw [if_pos hq]
    exact List.nodup_range items.length
  · rw [if_neg hq]
    have hscored : (items.enum.filterMap
        (fun p => (σ query (get_text p.2)).map (fun s => (p.1, s)))).Pairwise
        (fun p q : ℕ × ℕ => p.1 < q.1) := by
      refine List.Pairwise.filterMap _ ?_ (enum_pairwise_fst_lt items)
      rintro a a' hlt b hb b' hb'
      rw [Option.mem_def, Option.map_eq_some'] at hb hb'
      obtain ⟨s, -, hbs⟩ := hb
      obtain ⟨s', -, hbs'⟩ := hb'
      rw [← hbs, ← hbs']
      exact hlt
    have hmapnodup : ((items.enum.filterMap
        (fun p => (σ query (get_text p.2)).map (fun s => (p.1, s)))).map
        Prod.fst).Nodup := by
      rw [List.Nodup, List.pairwise_map]
      exact hscored.imp ne_of_lt
    have hperm := (sortStable_perm (fun a b : ℕ × ℕ => compare b.2 a.2)
      (items.enum.filterMap
        (fun p => (σ query (get_text p.2)).map (fun s => (p.1, s))))).map Prod.fst
    exact (hperm.nodup_iff).mpr hmapnodup

theorem fuzzy_filter_length_le {α : Type*} (items : List α) (query : String)
    (get_text : α → String) (σ : String → String → Option ℕ) :
    (fuzzy_filter items query get_text σ).length ≤ items.length := by
  unfold fuzzy_filter
  by_cases hq : query = ""
  · rw [if_pos hq]
    simp
  · rw [if_neg hq]
    rw [List.length_map, (sortStable_perm _ _).length_eq]
    calc (items.enum.filterMap
          (fun p => (σ query (get_text p.2)).map (fun s => (p.1, s)))).length
        ≤ items.enum.length := List.length_filterMap_le _ _
      _ = items.length := List.enum_length

theorem fuzzy_filter_eq_nil_iff {α : Type*} (items : List α) (query : String)
    (get_text : α → String) (σ : String → String → Option ℕ) (hq : query ≠ "") :
    fuzzy_filter items query get_text σ = [] ↔
      ∀ i (hi : i < items.length), σ query (get_text (items.get ⟨i, hi⟩)) = none := by
  unfold fuzzy_filter
  rw [if_neg hq, List.map_eq_nil_iff]
  have hlen := (sortStable_perm (fun a b : ℕ × ℕ => compare b.2 a.2)
    (items.enum.filterMap
      (fun p => (σ query (get_text p.2)).map (fun s => (p.1, s))))).length_eq
  constructor
  · intro hnil
    have : (items.enum.filterMap
        (fun p => (σ query (get_text p.2)).map (fun s => (p.1, s)))) = [] := by
      rw [← List.length_eq_zero, ← hlen, hnil]
      rfl
    rw [List.filterMap_eq_nil_iff] at this
    intro i hi
    have hmem := List.forall_mem_enum.mp this i hi
    rw [Option.map_eq_none'] at hmem
    simpa [List.get_eq_getElem] using hmem
  · intro hall
    rw [← List.length_eq_zero, hlen, List.length_eq_zero, List.filterMap_eq_nil_iff]
    rw [List.forall_mem_enum]
    intro i hi
    rw [Option.map_eq_none']
    simpa [List.get_eq_getElem] using hall i hi

/-- C8: the output of `sort_scripts` is a duplicate-free sequence of
in-range indices, no longer than the input; with a non-empty query every
non-matching item is absent; and the output is empty exactly when a
non-empty query matched nothing or there are no items. -/
theorem sort_scripts_output_C8 (scripts : List SortableScript)
    (favorites : String → Bool) (recents : List RecentEntry) (query : String)
    (σ : String → String → Option ℕ) (now_ms : ℕ) :
    (∀ i ∈ sort_scripts scripts favorites recents query σ now_ms,
      i < scripts.length) ∧
    (sort_scripts scripts favorites recents query σ now_ms).Nodup ∧
    (sort_scripts scripts favorites recents query σ now_ms).length ≤
      scripts.length ∧
    (query ≠ "" → ∀ i (hi : i < scripts.length),
      σ query (scripts.get ⟨i, hi⟩).name = none →
      i ∉ sort_scripts scripts favorites recents query σ now_ms) ∧
    (sort_scripts scripts favorites recents query σ now_ms = [] ↔
      ((query ≠ "" ∧ ∀ i (hi : i < scripts.length),
        σ query (scripts.get ⟨i, hi⟩).name = none) ∨ scripts = [])) := by
  by_cases hq : query = ""
  · subst hq
    have hperm : (sort_scripts scripts favorites recents "" σ now_ms).Perm
        (List.range scripts.length) := by
      unfold sort_scripts sort_scripts_no_query
      rw [if_pos rfl]
      exact sortStable_perm _ _
    refine ⟨?_, ?_, ?_, ?_, ?_⟩
    · intro i hi
      have := hperm.subset hi
      simpa using this
    · exact (hperm.nodup_iff).mpr (List.nodup_range scripts.length)
    · rw [hperm.length_eq, List.length_range]
    · intro hne
      exact absurd rfl hne
    · constructor
      · intro hnil
        right
        have := hperm.length_eq
        rw [hnil] at this
        simp only [List.length_nil, List.length_range] at this
        exact List.length_eq_zero.mp this.symm
      · rintro (⟨hne, -⟩ | hnil)
        · exact absurd rfl hne
        · have : scripts.length = 0 := by rw [hnil]; rfl
          rw [← List.length_eq_zero, hperm.length_eq, List.length_range, this]
  · have hout : sort_scripts scripts favorites recents query σ now_ms =
        sortStable (cmpWithQuery scripts favorites (recent_score recents now_ms))
          (fuzzy_filter scripts query SortableScript.name σ) := by
      unfold sort_scripts sort_scripts_with_query
      rw [if_neg hq]
    have hperm : (sort_scripts scripts favorites recents query σ now_ms).Perm
        (fuzzy_filter scripts query SortableScript.name σ) := by
      rw [hout]
      exact sortStable_perm _ _
    refine ⟨?_, ?_, ?_, ?_, ?_⟩
    · intro i hi
      have hmem := hperm.subset hi
      rw [fuzzy_filter_mem scripts query SortableScript.name σ hq i] at hmem
      obtain ⟨x, hx, -⟩ := hmem
      obtain ⟨hlt, -⟩ := List.getElem?_eq_some.mp hx
      exact hlt
    · exact (hperm.nodup_iff).mpr
        (fuzzy_filter_nodup scripts query SortableScript.name σ)
    · rw [hperm.length_eq]
      exact fuzzy_filter_length_le scripts query SortableScript.name σ
    · intro _ i hi hnone hmem
      have := hperm.subset hmem
      rw [fuzzy_filter_mem scripts query SortableScript.name σ hq i] at this
      obtain ⟨x, hx, s, hs⟩ := this
      obtain ⟨hlt, hget⟩ := List.getElem?_eq_some.mp hx
      have hxeq : x = scripts.get ⟨i, hi⟩ := by
        rw [← hget]
        simp [List.get_eq_getElem]
      rw [hxeq] at hs
      rw [hnone] at hs
      cases hs
    · have hiff : sort_scripts scripts favorites recents query σ now_ms = [] ↔
          fuzzy_filter scripts query SortableScript.name σ = [] := by
        constructor
        · intro hnil
          rw [← List.length_eq_zero, ← hperm.length_eq, hnil]
          rfl
        · intro hnil
          rw [← List.length_eq_zero, hperm.length_eq, hnil]
          rfl
      rw [hiff, fuzzy_filter_eq_nil_iff scripts query SortableScript.name σ hq]
      constructor
      · intro hall
        exact Or.inl ⟨hq, hall⟩
      · rintro (⟨-, hall⟩ | hnil)
        · exact hall
        · subst hnil
          intro i hi
          exact absurd hi (Nat.not_lt_zero i)

/-- C5: with an empty query the output is a permutation of all indices;
favorites precede non-favorites; favorites are ordered alphabetically by
name; non-favorites by descending frecency score (unscored ⇒ 0 via
`recent_score`), alphabetical on ties. -/
theorem sort_scripts_empty_query_C5 (scripts : List SortableScript)
    (favorites : String → Bool) (recents : List RecentEntry)
    (σ : String → String → Option ℕ) (now_ms : ℕ) :
    (sort_scripts scripts favorites recents "" σ now_ms).Perm
      (List.range scripts.length) ∧
    (sort_scripts scripts favorites recents "" σ now_ms).Pairwise
      (fun a b =>
        (favorites (scripts.getD b default).key = true →
          favorites (scripts.getD a default).key = true) ∧
        (favorites (scripts.getD a default).key = true →
          favorites (scripts.getD b default).key = true →
          (scripts.getD a default).name ≤ (scripts.getD b default).name) ∧
        (favorites (scripts.getD a default).key = false →
          favorites (scripts.getD b default).key = false →
          (recent_score recents now_ms (scripts.getD b default).key <
            recent_score recents now_ms (scripts.getD a default).key ∨
           (recent_score recents now_ms (scripts.getD a default).key =
            recent_score recents now_ms (scripts.getD b default).key ∧
            (scripts.getD a default).name ≤ (scripts.getD b default).name)))) := by
  have hout : sort_scripts scripts favorites recents "" σ now_ms =
      sortStable (cmpNoQuery scripts favorites (recent_score recents now_ms))
        (List.range scripts.length) := by
    unfold sort_scripts sort_scripts_no_query
    rw [if_pos rfl]
  constructor
  · rw [hout]
    exact sortStable_perm _ _
  · rw [hout]
    have hp := sortStable_pairwise
      (cmpNoQuery scripts favorites (recent_score recents now_ms))
      (cmpNoQuery_trans scripts favorites (recent_score recents now_ms))
      (cmpNoQuery_flip scripts favorites (recent_score recents now_ms))
      (List.range scripts.length)
    refine hp.imp ?_
    intro a b hab
    rw [cmpNoQuery_not_gt_iff] at hab
    refine ⟨fun h2 => ?_, fun h2 h3 => ?_, fun h2 h3 => ?_⟩
    · rcases hab with ⟨ha, hb⟩ | ⟨ha, hb, hn⟩ | ⟨ha, hb, hs⟩
      · exact ha
      · exact ha
      · rw [h2] at hb
        exact Bool.noConfusion hb
    · rcases hab with ⟨ha, hb⟩ | ⟨ha, hb, hn⟩ | ⟨ha, hb, hs⟩
      · rw [h3] at hb
        exact Bool.noConfusion hb
      · exact hn
      · rw [h2] at ha
        exact Bool.noConfusion ha
    · rcases hab with ⟨ha, hb⟩ | ⟨ha, hb, hn⟩ | ⟨ha, hb, hs⟩
      · rw [h2] at ha
        exact Bool.noConfusion ha
      · rw [h2] at ha
        exact Bool.noConfusion ha
      · exact hs

/-- C6 (amended): with a non-empty query the matched items are sorted stably
by favorite status first, then by descending frecency score; pairs tied on
both keep their relative order from the fuzzy filter output (which is what
breaks full ties — not alphabetical order). -/
theorem sort_scripts_query_ties_C6 (scripts : List SortableScript)
    (favorites : String → Bool) (recents : List RecentEntry) (query : String)
    (σ : String → String → Option ℕ) (now_ms : ℕ) (hq : query ≠ "") :
    (sort_scripts scripts favorites recents query σ now_ms).Pairwise
      (fun a b =>
        (favorites (scripts.getD b default).key = true →
          favorites (scripts.getD a default).key = true) ∧
        (favorites (scripts.getD a default).key =
            favorites (scripts.getD b default).key →
          recent_score recents now_ms (scripts.getD b default).key ≤
            recent_score recents now_ms (scripts.getD a default).key)) ∧
    (∀ a b, [a, b].Sublist (fuzzy_filter scripts query SortableScript.name σ) →
      favorites (scripts.getD a default).key =
        favorites (scripts.getD b default).key →
      recent_score recents now_ms (scripts.getD a default).key =
        recent_score recents now_ms (scripts.getD b default).key →
      [a, b].Sublist (sort_scripts scripts favorites recents query σ now_ms)) := by
  have hout : sort_scripts scripts favorites recents query σ now_ms =
      sortStable (cmpWithQuery scripts favorites (recent_score recents now_ms))
        (fuzzy_filter scripts query SortableScript.name σ) := by
    unfold sort_scripts sort_scripts_with_query
    rw [if_neg hq]
  constructor
  · rw [hout]
    have hp := sortStable_pairwise
      (cmpWithQuery scripts favorites (recent_score recents now_ms))
      (cmpWithQuery_trans scripts favorites (recent_score recents now_ms))
      (cmpWithQuery_flip scripts favorites (recent_score recents now_ms))
      (fuzzy_filter scripts query SortableScript.name σ)
    refine hp.imp ?_
    intro a b hab
    rw [cmpWithQuery_not_gt_iff] at hab
    refine ⟨fun h2 => ?_, fun h2 => ?_⟩
    · rcases hab with ⟨ha, hb⟩ | ⟨heq, hle⟩
      · exact ha
      · exact heq.trans h2
    · rcases hab with ⟨ha, hb⟩ | ⟨heq, hle⟩
      · rw [ha, hb] at h2
        exact Bool.noConfusion h2
      · exact hle
  · intro a b hsub hfeq hseq
    rw [hout]
    refine sortStable_sublist_pair _ hsub ?_
    rw [cmpWithQuery_not_gt_iff]
    exact Or.inr ⟨hfeq, le_of_eq hseq.symm⟩

theorem sort_scripts_query_ties_C6_witness :
    [0, 1].Sublist (sort_scripts
      [{ key := "kw0", name := "wb", command := "c" },
       { key := "kw1", name := "wa", command := "c" }]
      (fun _ => false) [] "w" (fun _ _ => some 1) 0) := by
  have hmatched : fuzzy_filter
      [({ key := "kw0", name := "wb", command := "c" } : SortableScript),
       { key := "kw1", name := "wa", command := "c" }]
      "w" SortableScript.name (fun _ _ => some 1) = [0, 1] := by decide
  have h := (sort_scripts_query_ties_C6
    [{ key := "kw0", name := "wb", command := "c" },
     { key := "kw1", name := "wa", command := "c" }]
    (fun _ => false) [] "w" (fun _ _ => some 1) 0 (by decide)).2 0 1
    (by rw [hmatched]) rfl rfl
  exact h

/-- C6 counterexample: two matched items with equal fuzzy scores, equal
(non-)favorite status and equal (zero) frecency: the code keeps them in
input order `[0, 1]` — item 0 named "xb", item 1 named "xa" — even though
the alphabetical fallback the claim states would put "xa" (index 1) first. -/
theorem sort_scripts_query_ties_C6_counterexample :
    sort_scripts
      [{ key := "k0", name := "xb", command := "c" },
       { key := "k1", name := "xa", command := "c" }]
      (fun _ => false) [] "x" (fun _ _ => some 1) 0 = [0, 1] ∧
    ("xa" : String) < "xb" ∧
    ¬ (sort_scripts
      [{ key := "k0", name := "xb", command := "c" },
       { key := "k1", name := "xa", command := "c" }]
      (fun _ => false) [] "x" (fun _ _ => some 1) 0).Pairwise
      (fun a b =>
        (([{ key := "k0", name := "xb", command := "c" },
           { key := "k1", name := "xa", command := "c" }] : List SortableScript).getD
            a default).name ≤
        (([{ key := "k0", name := "xb", command := "c" },
           { key := "k1", name := "xa", command := "c" }] : List SortableScript).getD
            b default).name) := by
  have hmatched : fuzzy_filter
      [({ key := "k0", name := "xb", command := "c" } : SortableScript),
       { key := "k1", name := "xa", command := "c" }]
      "x" SortableScript.name (fun _ _ => some 1) = [0, 1] := by decide
  have hcmp : cmpWithQuery
      [{ key := "k0", name := "xb", command := "c" },
       { key := "k1", name := "xa", command := "c" }]
      (fun _ => false) (recent_score [] 0) 0 1 = Ordering.eq := by
    simp [cmpWithQuery, recent_score]
  have hsort : sort_scripts
      [{ key := "k0", name := "xb", command := "c" },
       { key := "k1", name := "xa", command := "c" }]
      (fun _ => false) [] "x" (fun _ _ => some 1) 0 = [0, 1] := by
    unfold sort_scripts sort_scripts_with_query
    rw [if_neg (by decide : ¬ ("x" : String) = "")]
    rw [hmatched]
    show insertCmp _ 0 (insertCmp _ 1 []) = [0, 1]
    rw [show insertCmp (cmpWithQuery
      [{ key := "k0", name := "xb", command := "c" },
       { key := "k1", name := "xa", command := "c" }]
      (fun _ => false) (recent_score [] 0)) 1 [] = [1] from rfl]
    unfold insertCmp
    rw [hcmp]
    simp
  refine ⟨hsort, by rw [String.lt_iff_toList_lt]; decide, ?_⟩
  rw [hsort]
  intro hp
  have hle := (List.pairwise_cons.mp hp).1 1 (by simp)
  simp only [List.getD] at hle
  exact absurd hle (by rw [not_le, String.lt_iff_toList_lt]; decide)

/-- C1: evidence of the divergence at a concrete input.  Item 0 ("build")
fuzzy-scores 100, item 1 ("xbuildx") scores 50 but its key is a favorite;
`sort_scripts` returns `[1, 0]` — the weakly relevant favorite outranks the
exactly matching non-favorite, so relevance is not the primary sort key. -/
theorem sort_scripts_relevance_C1_bug :
    fuzzy_filter
      [({ key := "bld", name := "build", command := "b" } : SortableScript),
       { key := "xb", name := "xbuildx", command := "x" }]
      "build" SortableScript.name
      (fun _ t => if t = "build" then some 100
        else if t = "xbuildx" then some 50 else none) = [0, 1] ∧
    sort_scripts
      [{ key := "bld", name := "build", command := "b" },
       { key := "xb", name := "xbuildx", command := "x" }]
      (fun k => k == "xb") [] "build"
      (fun _ t => if t = "build" then some 100
        else if t = "xbuildx" then some 50 else none) 0 = [1, 0] := by
  constructor
  · decide
  · decide
